import Mathlib

/-!
Verification of the HD-wallet core of the `electron` repository.

The development shallowly embeds the Python sources `lib/bip32.py`,
`lib/keys.py` and `lib/account.py`.  Byte strings are modelled as
`List Nat` with every element below 256; base-58 text is modelled as the
list of base-58 digit values (the printable alphabet is a fixed bijection
between digit values and characters, so nothing is lost).  Python
exceptions are modelled by `Except PyErr`.  Helper modules of the
repository that are not part of the given sources (`lib/hash.py`,
`lib/cashaddr.py`) and the external `ecdsa` package are modelled from the
specification, as noted on each such definition.
-/

/-- The Python exceptions that the embedded code can raise. `typeError`
is never produced by the model because the Lean embedding is statically
typed; the `isinstance` checks of the source therefore always pass. -/
inductive PyErr where
  | valueError
  | derivationError
  | base58Error
  | addressError
  | nameError
  | attributeError
  | assertionError
  deriving DecidableEq, Repr

deriving instance DecidableEq for Except

/-! ## Big-endian positional digits

`lib/util.py`: `bytes_to_int` interprets a big-endian byte string as an
integer, `int_to_bytes` converts an integer to its minimal big-endian
byte string.  The same fold is used by the base-58 codec with base 58.
`toDigitsF` is a fuel-based (hence kernel-computable) most-significant-
first digit expansion; it is proved equal to `(Nat.digits b n).reverse`.
-/

def fromDigits (b : Nat) (l : List Nat) : Nat :=
  l.foldl (fun a d => a * b + d) 0

def toDigitsF : Nat → Nat → Nat → List Nat
  | 0, _, _ => []
  | f + 1, b, n => if n = 0 then [] else toDigitsF f b (n / b) ++ [n % b]

/-- `int_to_bytes` from `lib/util.py`: minimal big-endian bytes. -/
def natToBytes (n : Nat) : List Nat :=
  toDigitsF n 256 n

/-- `bytes_to_int` from `lib/util.py`. -/
def bytesToNat (l : List Nat) : Nat :=
  fromDigits 256 l

theorem fromDigits_eq_ofDigits (b : Nat) (l : List Nat) :
    fromDigits b l = Nat.ofDigits b l.reverse := by
  induction l using List.reverseRecOn with
  | nil => simp [fromDigits, Nat.ofDigits]
  | append_singleton l d ih =>
    have : fromDigits b (l ++ [d]) = fromDigits b l * b + d := by
      simp [fromDigits, List.foldl_append]
    rw [this, ih]
    simp only [List.reverse_append, List.reverse_singleton, List.singleton_append,
      Nat.ofDigits_cons]
    ring

theorem toDigitsF_eq_digits (b : Nat) (hb : 2 ≤ b) :
    ∀ (f n : Nat), n ≤ f → toDigitsF f b n = (Nat.digits b n).reverse := by
  intro f
  induction f with
  | zero =>
    intro n hn
    interval_cases n
    simp [toDigitsF]
  | succ f ih =>
    intro n hn
    by_cases h0 : n = 0
    · subst h0; simp [toDigitsF]
    · have hrec : Nat.digits b n = n % b :: Nat.digits b (n / b) :=
        Nat.digits_def' (by omega) (Nat.pos_of_ne_zero h0)
      have hdiv : n / b ≤ f := by
        have : n / b < n := Nat.div_lt_self (Nat.pos_of_ne_zero h0) (by omega)
        omega
      simp only [toDigitsF, h0, if_false, ih _ hdiv, hrec, List.reverse_cons]

theorem fromDigits_toDigitsF (b : Nat) (hb : 2 ≤ b) (f n : Nat) (hn : n ≤ f) :
    fromDigits b (toDigitsF f b n) = n := by
  rw [toDigitsF_eq_digits b hb f n hn, fromDigits_eq_ofDigits, List.reverse_reverse,
    Nat.ofDigits_digits]

theorem toDigitsF_lt (b : Nat) (hb : 2 ≤ b) (f n : Nat) (hn : n ≤ f) :
    ∀ d ∈ toDigitsF f b n, d < b := by
  rw [toDigitsF_eq_digits b hb f n hn]
  intro d hd
  exact Nat.digits_lt_base (by omega) (List.mem_reverse.mp hd)

theorem toDigitsF_len_le (b : Nat) (hb : 2 ≤ b) (f n k : Nat) (hn : n ≤ f)
    (hk : n < b ^ k) : (toDigitsF f b n).length ≤ k := by
  rw [toDigitsF_eq_digits b hb f n hn, List.length_reverse]
  by_contra h
  push_neg at h
  by_cases h0 : n = 0
  · subst h0; simp at h
  · have h1 : b ^ (Nat.digits b n).length ≤ b * n :=
      Nat.base_pow_length_digits_le b n (by omega) h0
    have h2 : b ^ (k + 1) ≤ b ^ (Nat.digits b n).length :=
      Nat.pow_le_pow_right (by omega) h
    have h3 : b * (b ^ k) ≤ b * n := by
      calc b * b ^ k = b ^ (k + 1) := by ring
      _ ≤ b ^ (Nat.digits b n).length := h2
      _ ≤ b * n := h1
    have := Nat.le_of_mul_le_mul_left h3 (by omega : 0 < b)
    omega

theorem toDigitsF_head_ne_zero (b : Nat) (hb : 2 ≤ b) (f n : Nat) (hn : n ≤ f)
    (h0 : n ≠ 0) : toDigitsF f b n ≠ [] ∧ (toDigitsF f b n).headD 1 ≠ 0 := by
  rw [toDigitsF_eq_digits b hb f n hn]
  have hne : Nat.digits b n ≠ [] := Nat.digits_ne_nil_iff_ne_zero.mpr h0
  have hlast := Nat.getLast_digit_ne_zero b h0
  constructor
  · simpa using hne
  · rw [List.headD_eq_head?, ← List.getLast?_reverse, List.reverse_reverse,
      List.getLast?_eq_getLast _ hne]
    simpa using hlast

theorem natToBytes_bytesToNat (n : Nat) : bytesToNat (natToBytes n) = n :=
  fromDigits_toDigitsF 256 (by omega) n n le_rfl

/-- If a big-endian byte string has no leading zero byte, converting it to
an integer and back restores it. -/
theorem bytesToNat_natToBytes (l : List Nat) (hlt : ∀ x ∈ l, x < 256)
    (hhead : l = [] ∨ l.headD 1 ≠ 0) : natToBytes (bytesToNat l) = l := by
  have hrev : Nat.digits 256 (Nat.ofDigits 256 l.reverse) = l.reverse := by
    apply Nat.digits_ofDigits 256 (by omega)
    · intro d hd; exact hlt d (List.mem_reverse.mp hd)
    · intro hne
      rw [List.getLast_reverse]
      rcases hhead with h | h
      · subst h; simp at hne
      · cases l with
        | nil => simp at hne
        | cons a t => simpa using h
  have hle : bytesToNat l ≤ bytesToNat l := le_rfl
  rw [bytesToNat, fromDigits_eq_ofDigits, natToBytes,
    toDigitsF_eq_digits 256 (by omega) _ _ le_rfl, hrev, List.reverse_reverse]

/-! ## Base58Check (`lib/hash.py`, absent from the given sources)

Modelled from the spec (section 4.3): "Base58Check: concatenate payload
with a 4-byte checksum (double-hash of payload, first 4 bytes), base-58
encode with leading-zero-byte preservation as leading `'1'` characters.
Decoding must verify the checksum and fail otherwise."  The double-SHA256
checksum function itself is also not in the given sources, so the codec
is parametrised by an arbitrary checksum function `chk`; every theorem
below holds for each choice of `chk`.  Base-58 text is represented as the
list of digit values (0 ↔ the character `'1'`). -/

def natToB58 (n : Nat) : List Nat :=
  toDigitsF n 58 n

def b58Encode (bs : List Nat) : List Nat :=
  List.replicate ((bs.takeWhile (fun x => x == 0)).length) 0 ++ natToB58 (bytesToNat bs)

def b58Decode (ds : List Nat) : Option (List Nat) :=
  if ds.all (fun d => decide (d < 58)) then
    some (List.replicate ((ds.takeWhile (fun x => x == 0)).length) 0
      ++ natToBytes (fromDigits 58 ds))
  else none

def b58EncodeCheck (chk : List Nat → List Nat) (payload : List Nat) : List Nat :=
  b58Encode (payload ++ (chk payload).take 4)

def b58DecodeCheck (chk : List Nat → List Nat) (ds : List Nat) : Option (List Nat) :=
  match b58Decode ds with
  | none => none
  | some raw =>
    if raw.drop (raw.length - 4) = (chk (raw.take (raw.length - 4))).take 4 then
      some (raw.take (raw.length - 4))
    else none

theorem fromDigits_cons_zero (b : Nat) (l : List Nat) :
    fromDigits b (0 :: l) = fromDigits b l := by
  simp [fromDigits]

theorem fromDigits_replicate_zero (b k : Nat) (l : List Nat) :
    fromDigits b (List.replicate k 0 ++ l) = fromDigits b l := by
  induction k with
  | zero => simp
  | succ k ih => simpa [List.replicate_succ, fromDigits_cons_zero] using ih

theorem takeWhile_append_all {p : Nat → Bool} (l1 l2 : List Nat)
    (h : ∀ x ∈ l1, p x = true) :
    (l1 ++ l2).takeWhile p = l1 ++ l2.takeWhile p := by
  induction l1 with
  | nil => simp
  | cons a t ih =>
    have ha : p a = true := h a (by simp)
    simp only [List.cons_append, List.takeWhile_cons, ha, if_true]
    rw [ih (fun x hx => h x (by simp [hx]))]

theorem eq_replicate_of_bytesToNat_zero (l : List Nat) (_hlt : ∀ x ∈ l, x < 256)
    (h0 : bytesToNat l = 0) : l = List.replicate l.length 0 := by
  have hz : ∀ x ∈ l, x = 0 := by
    intro x hx
    have : Nat.ofDigits 256 l.reverse = 0 := by
      rw [← fromDigits_eq_ofDigits]; exact h0
    exact Nat.digits_zero_of_eq_zero (by norm_num) this x (List.mem_reverse.mpr hx)
  exact List.eq_replicate_iff.mpr ⟨rfl, hz⟩

theorem dropWhile_headD_ne (l : List Nat) :
    l.dropWhile (fun x => x == 0) = [] ∨
      (l.dropWhile (fun x => x == 0)).headD 1 ≠ 0 := by
  induction l with
  | nil => simp
  | cons a t ih =>
    by_cases ha : a = 0
    · subst ha; simpa [List.dropWhile_cons] using ih
    · right
      simp [List.dropWhile_cons, ha]

theorem b58Decode_b58Encode (bs : List Nat) (hlt : ∀ x ∈ bs, x < 256) :
    b58Decode (b58Encode bs) = some bs := by
  set v := bytesToNat bs with hv
  have hall : (b58Encode bs).all (fun d => decide (d < 58)) = true := by
    rw [List.all_eq_true]
    intro d hd
    rw [b58Encode, List.mem_append] at hd
    rcases hd with hd | hd
    · have := List.eq_of_mem_replicate hd; simp [this]
    · simpa using toDigitsF_lt 58 (by omega) v v le_rfl d hd
  rw [b58Decode, if_pos hall]
  by_cases h0 : v = 0
  · have hbs : bs = List.replicate bs.length 0 :=
      eq_replicate_of_bytesToNat_zero bs hlt (hv ▸ h0)
    have hdigs : natToB58 v = [] := by
      rw [h0]; rfl
    have htw : bs.takeWhile (fun x => x == 0) = bs := by
      rw [List.takeWhile_eq_self_iff]
      intro x hx
      have := hbs ▸ hx
      simp [List.eq_of_mem_replicate this]
    have henc : b58Encode bs = List.replicate bs.length 0 := by
      rw [b58Encode, hdigs, htw, List.append_nil, ← hbs]
    rw [henc]
    have : (List.replicate bs.length (0 : Nat)).takeWhile (fun x => x == 0)
        = List.replicate bs.length 0 := by
      rw [List.takeWhile_eq_self_iff]
      intro x hx
      simp [List.eq_of_mem_replicate hx]
    rw [this, List.length_replicate]
    have hfd : fromDigits 58 (List.replicate bs.length 0) = 0 := by
      simpa using fromDigits_replicate_zero 58 bs.length []
    rw [hfd]
    have : natToBytes 0 = [] := rfl
    rw [this, List.append_nil, ← hbs]
  · obtain ⟨hne, hhd⟩ := toDigitsF_head_ne_zero 58 (by omega) v v le_rfl h0
    have htw : (b58Encode bs).takeWhile (fun x => x == 0)
        = List.replicate ((bs.takeWhile (fun x => x == 0)).length) 0 := by
      rw [b58Encode, takeWhile_append_all _ _ (by intro x hx; simp [List.eq_of_mem_replicate hx])]
      have : (natToB58 v).takeWhile (fun x => x == 0) = [] := by
        cases hd : natToB58 v with
        | nil => simp
        | cons d t =>
          have hd0 : d ≠ 0 := by
            have h := show (natToB58 v).headD 1 ≠ 0 from hhd
            rw [hd] at h
            simpa using h
          simp [List.takeWhile_cons, hd0]
      rw [this, List.append_nil]
    have hfd : fromDigits 58 (b58Encode bs) = v := by
      rw [b58Encode, fromDigits_replicate_zero]
      exact fromDigits_toDigitsF 58 (by omega) v v le_rfl
    rw [htw, hfd, List.length_replicate]
    have hsplit : bs.takeWhile (fun x => x == 0) ++ bs.dropWhile (fun x => x == 0) = bs :=
      List.takeWhile_append_dropWhile _ _
    have htwrep : bs.takeWhile (fun x => x == 0)
        = List.replicate ((bs.takeWhile (fun x => x == 0)).length) 0 := by
      apply List.eq_replicate_iff.mpr
      refine ⟨rfl, ?_⟩
      intro x hx
      have := List.mem_takeWhile_imp hx
      simpa using this
    have hvdrop : bytesToNat (bs.dropWhile (fun x => x == 0)) = v := by
      have h1 : bytesToNat (bs.takeWhile (fun x => x == 0) ++ bs.dropWhile (fun x => x == 0))
          = bytesToNat (bs.dropWhile (fun x => x == 0)) := by
        rw [htwrep]
        exact fromDigits_replicate_zero 256 _ _
      rw [← h1, hsplit]
    have hnb : natToBytes v = bs.dropWhile (fun x => x == 0) := by
      rw [← hvdrop]
      apply bytesToNat_natToBytes
      · intro x hx
        exact hlt x (List.dropWhile_sublist _ |>.subset hx)
      · exact dropWhile_headD_ne bs
    rw [hnb, ← htwrep, hsplit]

theorem b58DecodeCheck_b58EncodeCheck (chk : List Nat → List Nat) (payload : List Nat)
    (hlt : ∀ x ∈ payload, x < 256)
    (hchk : ∀ bs, (chk bs).length = 4 ∧ ∀ x ∈ chk bs, x < 256) :
    b58DecodeCheck chk (b58EncodeCheck chk payload) = some payload := by
  have hck := hchk payload
  have hraw : b58Decode (b58EncodeCheck chk payload)
      = some (payload ++ (chk payload).take 4) := by
    apply b58Decode_b58Encode
    intro x hx
    rcases List.mem_append.mp hx with h | h
    · exact hlt x h
    · exact hck.2 x (List.take_subset _ _ h)
  have hlen4 : ((chk payload).take 4).length = 4 := by
    rw [List.length_take, hck.1]
    simp
  have hlen : (payload ++ (chk payload).take 4).length - 4 = payload.length := by
    rw [List.length_append, hlen4]; omega
  rw [b58DecodeCheck, hraw]
  simp only [hlen]
  have htake : (payload ++ (chk payload).take 4).take payload.length = payload :=
    List.take_left _ _
  have hdrop : (payload ++ (chk payload).take 4).drop payload.length = (chk payload).take 4 :=
    List.drop_left _ _
  rw [htake, hdrop, if_pos rfl]

/-! ## Curve arithmetic (the external `ecdsa` package)

Modelled from the spec (section 4.1): a single fixed SECP-family curve
with `a = 0`, point addition, scalar multiplication by the generator, and
decompression by a modular square root.  The constants are those of the
curve the source names (`ecdsa.SECP256k1`).  `powMod` is fuel-based
binary modular exponentiation so that it computes inside the kernel. -/

def pSecp : Nat :=
  0xFFFFFFFFFFFFFFFFFFFFFFFFFFFFFFFFFFFFFFFFFFFFFFFFFFFFFFFEFFFFFC2F

def nOrder : Nat :=
  0xFFFFFFFFFFFFFFFFFFFFFFFFFFFFFFFEBAAEDCE6AF48A03BBFD25E8CD0364141

def gX : Nat :=
  0x79BE667EF9DCBBAC55A06295CE870B07029BFCDB2DCE28D959F2815B16F81798

def gY : Nat :=
  0x483ADA7726A3C4655DA4FBFC0E1108A8FD17B448A68554199C47D08FFB10D4B8

def powModF : Nat → Nat → Nat → Nat → Nat
  | 0, _, _, m => 1 % m
  | f + 1, b, e, m =>
    if e = 0 then 1 % m
    else
      let r := powModF f (b * b % m) (e / 2) m
      if e % 2 = 1 then r * b % m else r

def powMod (b e m : Nat) : Nat :=
  powModF (e + 1) (b % m) e m

theorem powModF_lt (m : Nat) (hm : 0 < m) :
    ∀ (f b e : Nat), powModF f b e m < m := by
  intro f
  induction f with
  | zero => intro b e; simpa [powModF] using Nat.mod_lt 1 hm
  | succ f ih =>
    intro b e
    by_cases h0 : e = 0
    · simpa [powModF, h0] using Nat.mod_lt 1 hm
    · simp only [powModF, h0, if_false]
      by_cases h1 : e % 2 = 1
      · simpa [h1] using Nat.mod_lt _ hm
      · simpa [h1] using ih (b * b % m) (e / 2)

theorem powMod_lt (b e m : Nat) (hm : 0 < m) : powMod b e m < m :=
  powModF_lt m hm _ _ _

/-- A point of the curve group; `infinity` is the distinguished identity
sentinel (`ecdsa.ellipticcurve.INFINITY`). -/
inductive ECPoint where
  | infinity
  | point (x y : Nat)
  deriving DecidableEq, Repr

/-- Modular inverse by Fermat exponentiation; only used inside the
(spec-modelled) affine point addition, whose numeric output no theorem
below depends on. -/
def modInvP (a : Nat) : Nat :=
  powMod a (pSecp - 2) pSecp

def ecAdd : ECPoint → ECPoint → ECPoint
  | .infinity, q => q
  | p, .infinity => p
  | .point x1 y1, .point x2 y2 =>
    let a1 := x1 % pSecp
    let b1 := y1 % pSecp
    let a2 := x2 % pSecp
    let b2 := y2 % pSecp
    if a1 = a2 then
      if (b1 + b2) % pSecp = 0 then .infinity
      else
        let l := (3 * a1 * a1 % pSecp) * modInvP ((2 * b1) % pSecp) % pSecp
        let x3 := (l * l + 2 * pSecp - a1 - a2) % pSecp
        .point x3 ((l * ((a1 + pSecp - x3) % pSecp) + pSecp - b1) % pSecp)
    else
      let l := ((b2 + pSecp - b1) % pSecp) * modInvP ((a2 + pSecp - a1) % pSecp) % pSecp
      let x3 := (l * l + 2 * pSecp - a1 - a2) % pSecp
      .point x3 ((l * ((a1 + pSecp - x3) % pSecp) + pSecp - b1) % pSecp)

def ecMulAux : Nat → ECPoint → ECPoint → Nat → ECPoint
  | 0, acc, _, _ => acc
  | f + 1, acc, addend, k =>
    if k = 0 then acc
    else ecMulAux f (if k % 2 = 1 then ecAdd acc addend else acc) (ecAdd addend addend) (k / 2)

/-- Scalar multiplication of the generator (`curve.generator * k`). -/
def ecMulG (k : Nat) : ECPoint :=
  ecMulAux (k + 1) .infinity (.point gX gY) k

/-! ## BIP32 keys (`lib/bip32.py`)

The two key classes.  A Python `MasterPrivKey` stores an
`ecdsa.SigningKey`, whose content is exactly the validated secret
exponent; a `MasterPubKey` stores an `ecdsa.VerifyingKey`, whose content
is the curve point.  The hash functions `hmac_sha512` and `hash160` live
in `lib/hash.py`, which is absent from the given sources; following the
spec (sections 4.2 and 3) they are opaque byte-string functions, so the
derivation operations are parametrised over them via `HashFns` and every
theorem quantifies over the parameter. -/

structure HashFns where
  hmacSHA512 : List Nat → List Nat → List Nat
  hash160 : List Nat → List Nat

structure MasterPrivKey where
  secret : Nat
  chain_code : List Nat
  n : Nat
  depth : Nat
  parent_fingerprint : List Nat
  deriving DecidableEq, Repr

structure MasterPubKey where
  point : ECPoint
  chain_code : List Nat
  n : Nat
  depth : Nat
  parent_fingerprint : List Nat
  deriving DecidableEq, Repr

/-- `struct.pack('>I', n)`: 4 big-endian bytes. -/
def be4 (n : Nat) : List Nat :=
  [n / 2 ^ 24 % 256, n / 2 ^ 16 % 256, n / 2 ^ 8 % 256, n % 256]

/-- `_exponent_to_bytes`: `(bytes(32) + int_to_bytes(exponent))[-32:]`. -/
def exponentToBytes (e : Nat) : List Nat :=
  let l := List.replicate 32 0 ++ natToBytes e
  l.drop (l.length - 32)

/-- The validations of `_KeyBase.__init__` (chain code length 32, child
number below `2^32`, depth below 256, parent fingerprint length 4). -/
def keyBaseChecks (chain_code : List Nat) (n depth : Nat)
    (parent_fingerprint : List Nat) : Except PyErr Unit :=
  if chain_code.length ≠ 32 then .error .valueError
  else if ¬ n < 2 ^ 32 then .error .valueError
  else if ¬ depth < 256 then .error .valueError
  else if parent_fingerprint.length ≠ 4 then .error .valueError
  else .ok ()

/-- `MasterPrivKey.__init__` with a 32-byte private key: the `_KeyBase`
checks followed by `_privkey_secret_exponent` (length 32 and
`1 <= exponent < curve.order`). -/
def mkMasterPrivKey (privkey chain_code : List Nat) (n depth : Nat)
    (parent_fingerprint : List Nat) : Except PyErr MasterPrivKey :=
  match keyBaseChecks chain_code n depth parent_fingerprint with
  | .error e => .error e
  | .ok () =>
    if privkey.length ≠ 32 then .error .valueError
    else if ¬ (1 ≤ bytesToNat privkey ∧ bytesToNat privkey < nOrder) then .error .valueError
    else .ok ⟨bytesToNat privkey, chain_code, n, depth, parent_fingerprint⟩

/-- `MasterPubKey._verifying_key_from_pubkey`: decompress a 33-byte
compressed public key.  The modular square root (the external
`ecdsa.numbertheory.square_root_mod_prime`) is modelled from the spec
(section 4.1): for this curve `p % 4 = 3`, the candidate root is
`y2 ^ ((p+1)/4) mod p`, and failure is signalled if no square root
exists; the model detects that case by squaring the candidate, which for
a prime modulus is equivalent to the library's residue test. -/
def decompressPoint (pubkey : List Nat) : Except PyErr ECPoint :=
  if pubkey.length ≠ 33 then .error .valueError
  else if ¬ (pubkey.headD 0 = 2 ∨ pubkey.headD 0 = 3) then .error .valueError
  else
    let is_odd := pubkey.headD 0 = 3
    let x := bytesToNat (pubkey.drop 1)
    let y2 := (x ^ 3 % pSecp + 7) % pSecp
    let r := powMod y2 ((pSecp + 1) / 4) pSecp
    if r * r % pSecp ≠ y2 then .error .valueError
    else if (decide (r % 2 = 1)) ≠ (decide is_odd) then .ok (.point x (pSecp - r))
    else .ok (.point x r)

/-- `MasterPubKey.__init__` from 33 raw bytes. -/
def mkMasterPubKeyFromBytes (pubkey chain_code : List Nat) (n depth : Nat)
    (parent_fingerprint : List Nat) : Except PyErr MasterPubKey :=
  match keyBaseChecks chain_code n depth parent_fingerprint with
  | .error e => .error e
  | .ok () =>
    match decompressPoint pubkey with
    | .error e => .error e
    | .ok pt => .ok ⟨pt, chain_code, n, depth, parent_fingerprint⟩

/-- `MasterPubKey.__init__` from an `ecdsa.VerifyingKey` (a point). -/
def mkMasterPubKeyFromPoint (pt : ECPoint) (chain_code : List Nat) (n depth : Nat)
    (parent_fingerprint : List Nat) : Except PyErr MasterPubKey :=
  match keyBaseChecks chain_code n depth parent_fingerprint with
  | .error e => .error e
  | .ok () => .ok ⟨pt, chain_code, n, depth, parent_fingerprint⟩

/-- `MasterPubKey.compressed_pubkey` / `pubkey_bytes`: prefix byte
`2 + (y & 1)` followed by the padded x-coordinate.  The source would
crash on the point at infinity (`point.x()` of the sentinel); derivation
never constructs such a key, and no theorem below evaluates this case. -/
def pubkeyBytes (K : MasterPubKey) : List Nat :=
  match K.point with
  | .point x y => (2 + y % 2) :: exponentToBytes x
  | .infinity => []

/-- `MasterPrivKey.public_key`: the corresponding extended public key. -/
def publicKeyOf (K : MasterPrivKey) : MasterPubKey :=
  ⟨ecMulG K.secret, K.chain_code, K.n, K.depth, K.parent_fingerprint⟩

/-- `MasterPubKey.fingerprint`: `hash160(pubkey_bytes)[:4]`. -/
def pubFingerprint (H : HashFns) (K : MasterPubKey) : List Nat :=
  (H.hash160 (pubkeyBytes K)).take 4

/-- `MasterPrivKey.fingerprint`, via the key's public projection. -/
def privFingerprint (H : HashFns) (K : MasterPrivKey) : List Nat :=
  pubFingerprint H (publicKeyOf K)

/-! ## Child derivation (`lib/bip32.py`) -/

/-- The serialized key used as the HMAC message head of
`MasterPrivKey.child`: hardened indices use `0x00` plus the private key
bytes, normal indices the compressed public key. -/
def privSerkey (K : MasterPrivKey) (n : Nat) : List Nat :=
  if n ≥ 2 ^ 31 then 0 :: exponentToBytes K.secret
  else pubkeyBytes (publicKeyOf K)

/-- The first half of the HMAC of `MasterPrivKey.child`, as an integer. -/
def privL (H : HashFns) (K : MasterPrivKey) (n : Nat) : Nat :=
  bytesToNat ((H.hmacSHA512 K.chain_code (privSerkey K n ++ be4 n)).take 32)

/-- The second half of the HMAC of `MasterPrivKey.child`. -/
def privR (H : HashFns) (K : MasterPrivKey) (n : Nat) : List Nat :=
  (H.hmacSHA512 K.chain_code (privSerkey K n ++ be4 n)).drop 32

/-- `MasterPrivKey.child`. -/
def privChild (H : HashFns) (K : MasterPrivKey) (n : Nat) : Except PyErr MasterPrivKey :=
  if ¬ n < 2 ^ 32 then .error .valueError
  else
    let L := privL H K n
    let exponent := (L + bytesToNat (exponentToBytes K.secret)) % nOrder
    if exponent = 0 ∨ L ≥ nOrder then .error .derivationError
    else
      mkMasterPrivKey (exponentToBytes exponent) (privR H K n) n (K.depth + 1)
        (privFingerprint H K)

/-- The first half of the HMAC of `MasterPubKey.child_verkey_R`. -/
def pubL (H : HashFns) (K : MasterPubKey) (n : Nat) : Nat :=
  bytesToNat ((H.hmacSHA512 K.chain_code (pubkeyBytes K ++ be4 n)).take 32)

/-- The second half of the HMAC of `MasterPubKey.child_verkey_R`. -/
def pubR (H : HashFns) (K : MasterPubKey) (n : Nat) : List Nat :=
  (H.hmacSHA512 K.chain_code (pubkeyBytes K ++ be4 n)).drop 32

/-- `MasterPubKey.child_verkey_R`. -/
def childVerkeyR (H : HashFns) (K : MasterPubKey) (n : Nat) :
    Except PyErr (ECPoint × List Nat) :=
  if ¬ n < 2 ^ 31 then .error .valueError
  else
    let L := pubL H K n
    if L ≥ nOrder then .error .derivationError
    else
      let pt := ecAdd (ecMulG L) K.point
      if pt = .infinity then .error .derivationError
      else .ok (pt, pubR H K n)

/-- `MasterPubKey.child`. -/
def pubChild (H : HashFns) (K : MasterPubKey) (n : Nat) : Except PyErr MasterPubKey :=
  match childVerkeyR H K n with
  | .error e => .error e
  | .ok (pt, R) => mkMasterPubKeyFromPoint pt R n (K.depth + 1) (pubFingerprint H K)

/-- `MasterPubKey.child_compressed_pubkey`. -/
def childCompressedPubkey (H : HashFns) (K : MasterPubKey) (n : Nat) :
    Except PyErr (List Nat) :=
  match childVerkeyR H K n with
  | .error e => .error e
  | .ok (pt, _) =>
    match pt with
    | .point x y => .ok ((2 + y % 2) :: exponentToBytes x)
    | .infinity => .ok []

/-! ## Extended-key serialization (`lib/bip32.py`) -/

/-- `_KeyBase._extended_key`: the 78-byte extended key. -/
def extendedKeyBytes (ver_bytes : List Nat) (depth : Nat) (pfp : List Nat) (n : Nat)
    (chain_code raw_serkey : List Nat) : Except PyErr (List Nat) :=
  if ver_bytes.length ≠ 4 then .error .valueError
  else if raw_serkey.length ≠ 33 then .error .valueError
  else .ok (ver_bytes ++ [depth] ++ pfp ++ be4 n ++ chain_code ++ raw_serkey)

/-- `MasterPrivKey.extended_key`: serkey is `0x00` plus the private key. -/
def privExtendedKey (K : MasterPrivKey) (ver_bytes : List Nat) : Except PyErr (List Nat) :=
  extendedKeyBytes ver_bytes K.depth K.parent_fingerprint K.n K.chain_code
    (0 :: exponentToBytes K.secret)

/-- `MasterPubKey.extended_key`: serkey is the compressed public key. -/
def pubExtendedKey (K : MasterPubKey) (ver_bytes : List Nat) : Except PyErr (List Nat) :=
  extendedKeyBytes ver_bytes K.depth K.parent_fingerprint K.n K.chain_code (pubkeyBytes K)

/-- `_KeyBase.extended_key_string` for the private variant. -/
def privExtendedKeyString (chk : List Nat → List Nat) (K : MasterPrivKey)
    (ver_bytes : List Nat) : Except PyErr (List Nat) :=
  (privExtendedKey K ver_bytes).map (b58EncodeCheck chk)

/-- `_KeyBase.extended_key_string` for the public variant. -/
def pubExtendedKeyString (chk : List Nat → List Nat) (K : MasterPubKey)
    (ver_bytes : List Nat) : Except PyErr (List Nat) :=
  (pubExtendedKey K ver_bytes).map (b58EncodeCheck chk)

/-- `_from_extended_key`: parse 78 raw bytes, dispatching on byte 45. -/
def fromExtendedKey (ekey : List Nat) : Except PyErr (MasterPrivKey ⊕ MasterPubKey) :=
  if ekey.length ≠ 78 then .error .valueError
  else
    let depth := ekey.getD 4 0
    let pfp := (ekey.drop 5).take 4
    let n := bytesToNat ((ekey.drop 9).take 4)
    let chain := (ekey.drop 13).take 32
    if ekey.getD 45 0 ≠ 0 then
      (mkMasterPubKeyFromBytes (ekey.drop 45) chain n depth pfp).map Sum.inr
    else
      (mkMasterPrivKey (ekey.drop 46) chain n depth pfp).map Sum.inl

/-- `from_extended_key_string`: Base58Check-decode, parse, and return the
key together with the first four (version) bytes. -/
def fromExtendedKeyString (chk : List Nat → List Nat) (s : List Nat) :
    Except PyErr ((MasterPrivKey ⊕ MasterPubKey) × List Nat) :=
  match b58DecodeCheck chk s with
  | none => .error .base58Error
  | some ekey =>
    match fromExtendedKey ekey with
    | .error e => .error e
    | .ok key => .ok (key, ekey.take 4)

/-! ## Well-formedness invariants -/

def bytesLt (l : List Nat) : Prop :=
  ∀ x ∈ l, x < 256

instance (l : List Nat) : Decidable (bytesLt l) :=
  List.decidableBAll _ l

/-- The square-root computation of `decompressPoint` succeeds on `x`.
For the actual prime `pSecp` (which is `3 mod 4`) this follows from the
curve equation by Euler's criterion whenever some point `(x, y)` lies on
the curve; it is recorded explicitly in the invariant because the
embedding works over `Nat` and no primality certificate for the 256-bit
modulus is available to the kernel. -/
def xDecompressOK (x : Nat) : Prop :=
  powMod ((x ^ 3 % pSecp + 7) % pSecp) ((pSecp + 1) / 4) pSecp
      * powMod ((x ^ 3 % pSecp + 7) % pSecp) ((pSecp + 1) / 4) pSecp % pSecp
    = (x ^ 3 % pSecp + 7) % pSecp

instance (x : Nat) : Decidable (xDecompressOK x) := by
  unfold xDecompressOK
  infer_instance

/-- The stored point is an actual affine curve point with reduced
coordinates whose x-coordinate decompresses. -/
def pointOK : ECPoint → Prop
  | .point x y =>
      x < pSecp ∧ y < pSecp ∧ y * y % pSecp = (x ^ 3 % pSecp + 7) % pSecp ∧ xDecompressOK x
  | .infinity => False

instance (pt : ECPoint) : Decidable (pointOK pt) := by
  cases pt <;> (unfold pointOK; infer_instance)

/-- The invariant every constructed `MasterPrivKey` satisfies: the
`_KeyBase` checks, Python's byte range, and the validated exponent. -/
def wfPriv (K : MasterPrivKey) : Prop :=
  K.chain_code.length = 32 ∧ bytesLt K.chain_code ∧ K.n < 2 ^ 32 ∧ K.depth < 256 ∧
    K.parent_fingerprint.length = 4 ∧ bytesLt K.parent_fingerprint ∧
    1 ≤ K.secret ∧ K.secret < nOrder

instance (K : MasterPrivKey) : Decidable (wfPriv K) := by
  unfold wfPriv
  infer_instance

/-- The invariant of a `MasterPubKey` holding an actual curve point. -/
def wfPub (K : MasterPubKey) : Prop :=
  K.chain_code.length = 32 ∧ bytesLt K.chain_code ∧ K.n < 2 ^ 32 ∧ K.depth < 256 ∧
    K.parent_fingerprint.length = 4 ∧ bytesLt K.parent_fingerprint ∧
    pointOK K.point

instance (K : MasterPubKey) : Decidable (wfPub K) := by
  unfold wfPub
  infer_instance

/-! ## Addresses (`lib/keys.py`)

`Address` is a namedtuple `(hash160, kind)` whose constructor checks that
the hash is exactly 20 bytes; `BCHAddress` adds the three text formats.
The cashaddr codec (`lib/cashaddr.py`) is absent from the given sources;
following the spec (section 4.4) it is an opaque encoder parameter. -/

inductive AddrKind where
  | p2pkh
  | p2sh
  deriving DecidableEq, Repr

structure Address where
  hash160 : List Nat
  kind : AddrKind
  deriving DecidableEq, Repr

/-- The version-byte configuration (`NetworkConstants`, injected). -/
structure NetworkConsts where
  p2pkhVer : Nat
  p2shVer : Nat
  p2pkhVerBitpay : Nat
  p2shVerBitpay : Nat
  deriving DecidableEq, Repr

def FMT_CASHADDR : Nat := 0
def FMT_LEGACY : Nat := 1
def FMT_BITPAY : Nat := 2

/-- `BCHAddress.to_string` (`lib/keys.py` lines 153-169).  The cashaddr
branch returns the encoded payload; the legacy and bitpay branches
compute the version byte and then fall off the end of the function, so
Python returns `None` (modelled by `.ok none`) -- the
`Base58.encode_check` call is missing from the source.  An unrecognised
format raises `AddressError`. -/
def toStringBCH (cenc : AddrKind → List Nat → List Nat) (NC : NetworkConsts)
    (a : Address) (fmt : Nat) : Except PyErr (Option (List Nat)) :=
  if fmt = FMT_CASHADDR then .ok (some (cenc a.kind a.hash160))
  else if fmt = FMT_LEGACY then
    let _verbyte := match a.kind with
      | .p2pkh => NC.p2pkhVer
      | .p2sh => NC.p2shVer
    .ok none
  else if fmt = FMT_BITPAY then
    let _verbyte := match a.kind with
      | .p2pkh => NC.p2pkhVerBitpay
      | .p2sh => NC.p2shVerBitpay
    .ok none
  else .error .addressError

/-! ## Gap-limit key lists and accounts (`lib/account.py`) -/

/-- The namedtuple `HDPublicKey` of `lib/keys.py`: compressed public key
bytes together with the embedded child index. -/
structure HDPublicKey where
  pubkey : List Nat
  n : Nat
  deriving DecidableEq, Repr

/-- The global names visible inside the module `lib/account.py`: its five
classes and its two imports.  `BIP32PublicKey`, which
`HDPubKeyList.is_beyond_limit` references, is not among them, so
evaluating that reference raises `NameError`. -/
inductive PyIdent where
  | pubKeyListC
  | hdPubKeyListC
  | bip32PubKeyListC
  | accountC
  | bip32AccountC
  | bip32Mod
  | hdPublicKeyC
  | bip32PublicKeyC
  deriving DecidableEq, Repr

def accountModuleDefines : PyIdent → Bool
  | .bip32PublicKeyC => false
  | _ => true

/-- `HDPubKeyList.generate_gap`.  `child` stands for the abstract
`self.child` method that the subclass `BIP32PubKeyList` provides; the
`assert` on `max_used` is modelled by `AssertionError`. -/
def generateGap (child : Nat → HDPublicKey) (gap_limit : Nat)
    (pubkeys : List HDPublicKey) (max_used : Int) : Except PyErr (List HDPublicKey) :=
  if max_used < -1 then .error .assertionError
  else
    let start : Nat := match pubkeys.getLast? with
      | some k => k.n + 1
      | none => 0
    let cnt : Nat := (max_used + gap_limit + 1 - start).toNat
    .ok (pubkeys ++ (List.range cnt).map (fun i => child (start + i)))

/-- `HDPubKeyList.is_beyond_limit`.  Its first statement is
`assert isinstance(pubkey, BIP32PublicKey)`; the name `BIP32PublicKey`
is not defined in `lib/account.py` (the module defines
`BIP32PubKeyList` and imports `HDPublicKey`), so the lookup raises
`NameError` before anything else runs.  The comparison that the rest of
the body would perform is kept in the unreachable branch. -/
def isBeyondLimit (gap_limit : Nat) (pk : HDPublicKey) (max_used : Int) :
    Except PyErr Bool :=
  if accountModuleDefines PyIdent.bip32PublicKeyC then
    if max_used < -1 then .error .assertionError
    else .ok (decide ((pk.n : Int) > max_used + gap_limit))
  else .error .nameError

/-- The state of an `Account` object right after `Account.__init__`:
`history` is a fresh dict and -- decisive for claim C6 -- no
`gap_check_event` attribute is ever created, modelled as `none`. -/
structure Account where
  rec_keys : List HDPublicKey
  chg_keys : List HDPublicKey
  history : List (List Nat × List Nat)
  gap_check_event : Option Bool
  deriving DecidableEq, Repr

def mkAccount (rec_keys chg_keys : List HDPublicKey) : Account :=
  ⟨rec_keys, chg_keys, [], none⟩

/-- Python-dict update `self.history[addr] = hist` (insertion order
preserved, existing key overwritten in place). -/
def histSet (h : List (List Nat × List Nat)) (a v : List Nat) :
    List (List Nat × List Nat) :=
  if h.any (fun q => q.1 == a) then h.map (fun q => if q.1 == a then (a, v) else q)
  else h ++ [(a, v)]

/-- `Account.set_address_history`: the history write happens first; the
subsequent `self.gap_check_event.set()` raises `AttributeError` whenever
the attribute was never created (which `Account.__init__` never does). -/
def setAddressHistory (st : Account) (a hist : List Nat) : Account × Except PyErr Unit :=
  let st1 : Account := ⟨st.rec_keys, st.chg_keys, histSet st.history a hist,
    st.gap_check_event⟩
  match st.gap_check_event with
  | none => (st1, .error .attributeError)
  | some _ => (⟨st1.rec_keys, st1.chg_keys, st1.history, some true⟩, .ok ())

/-- `Account.sync` iterates `self.rec_addr_list`, which is not an
attribute of `Account` (the fields are `rec_keys` and `chg_keys`), so it
raises `AttributeError` before touching any state; in particular it
never mutates the history map. -/
def syncAccount (st : Account) : Account × Except PyErr Unit :=
  (st, .error .attributeError)

/-! ## Helper lemmas for the gap-limit list -/

theorem getLastQ_map (f : HDPublicKey → Nat) (l : List HDPublicKey) :
    (l.map f).getLast? = l.getLast?.map f := by
  induction l with
  | nil => rfl
  | cons a t ih =>
    cases t with
    | nil => rfl
    | cons b u =>
      simpa [List.getLast?_cons_cons] using ih

theorem filter_length_map (f : HDPublicKey → Nat) (p : Nat → Bool) (l : List HDPublicKey) :
    ((l.map f).filter p).length = (l.filter (fun a => p (f a))).length := by
  induction l with
  | nil => rfl
  | cons a t ih =>
    by_cases h : p (f a)
    · simp [List.filter_cons, h, ih]
    · simp [List.filter_cons, h, ih]

theorem filter_range_length (K mm : Nat) :
    ((List.range K).filter (fun x => decide (mm ≤ x))).length = K - mm := by
  induction K with
  | zero => simp
  | succ K ih =>
    rw [List.range_succ, List.filter_append, List.length_append, ih]
    by_cases h : mm ≤ K
    · simp only [List.filter_cons, List.filter_nil, decide_eq_true h]
      simp
      omega
    · simp only [List.filter_cons, List.filter_nil]
      rw [decide_eq_false h]
      simp
      omega

/-- The starting index computed by `generate_gap` equals the number of
already-generated entries when the entries are exactly `0..k-1`. -/
theorem generateGap_start (pubkeys : List HDPublicKey) (k : Nat)
    (hmap : pubkeys.map (fun e => e.n) = List.range k) :
    (match pubkeys.getLast? with
      | some q => q.n + 1
      | none => 0) = k := by
  cases k with
  | zero =>
    have : pubkeys.map (fun e => e.n) = [] := by simpa using hmap
    have hnil : pubkeys = [] := List.map_eq_nil_iff.mp this
    simp [hnil]
  | succ k' =>
    have hlast : (pubkeys.map (fun e => e.n)).getLast? = some k' := by
      rw [hmap, List.range_succ, List.getLast?_concat]
    rw [getLastQ_map] at hlast
    cases hq : pubkeys.getLast? with
    | none => rw [hq] at hlast; simp at hlast
    | some q =>
      rw [hq] at hlast
      have hqn : q.n = k' := by simpa using hlast
      simp [hqn]

/-- C3: with entries exactly `0..k-1` and `max_used ≥ -1`, `generate_gap`
appends exactly the keys at indices `k` through `max_used + g`
(nothing when `max_used + g < k`), leaving at least `g` entries whose
index exceeds `max_used`. -/
theorem C3_generate_gap (child : Nat → HDPublicKey) (g : Nat) (pubkeys : List HDPublicKey)
    (k : Nat) (max_used : Int) (hg : 1 ≤ g) (hm : -1 ≤ max_used)
    (hchild : ∀ j, (child j).n = j)
    (hmap : pubkeys.map (fun e => e.n) = List.range k) :
    generateGap child g pubkeys max_used
      = .ok (pubkeys
          ++ (List.range ((max_used + g + 1 - k).toNat)).map (fun i => child (k + i))) ∧
    ((max_used + g : Int) < k → generateGap child g pubkeys max_used = .ok pubkeys) ∧
    g ≤ ((pubkeys
          ++ (List.range ((max_used + g + 1 - k).toNat)).map (fun i => child (k + i))).filter
            (fun e => decide (max_used < (e.n : Int)))).length := by
  have hstart := generateGap_start pubkeys k hmap
  have hmain : generateGap child g pubkeys max_used
      = .ok (pubkeys
          ++ (List.range ((max_used + g + 1 - k).toNat)).map (fun i => child (k + i))) := by
    rw [generateGap, if_neg (by omega)]
    rw [hstart]
  refine ⟨hmain, ?_, ?_⟩
  · intro hlt
    rw [hmain]
    have : (max_used + g + 1 - k : Int).toNat = 0 := by omega
    rw [this]
    simp
  · set cnt := (max_used + g + 1 - k : Int).toNat with hcnt
    set l := pubkeys ++ (List.range cnt).map (fun i => child (k + i)) with hl
    have hln : l.map (fun e => e.n) = List.range (k + cnt) := by
      rw [hl, List.map_append, hmap, List.map_map]
      have : ((fun e => e.n) ∘ fun i => child (k + i)) = fun i => k + i := by
        funext i
        simp [hchild]
      rw [this, List.range_add]
    have hcount : (l.filter (fun e => decide (max_used < (e.n : Int)))).length
        = (k + cnt) - (max_used + 1).toNat := by
      have h1 : ((l.map (fun e => e.n)).filter
            (fun x => decide ((max_used + 1).toNat ≤ x))).length
          = (l.filter (fun e => decide ((max_used + 1).toNat ≤ e.n))).length :=
        filter_length_map _ _ l
      have h2 : (l.filter (fun e => decide (max_used < (e.n : Int)))).length
          = (l.filter (fun e => decide ((max_used + 1).toNat ≤ e.n))).length := by
        have : ∀ e ∈ l, (decide (max_used < (e.n : Int)))
            = (decide ((max_used + 1).toNat ≤ e.n)) := by
          intro e _
          have : max_used < (e.n : Int) ↔ (max_used + 1).toNat ≤ e.n := by omega
          simp [this]
        rw [List.filter_congr this]
      rw [h2, ← h1, hln, filter_range_length]
    rw [hcount]
    omega

/-- C3 witness: the first conjunct of `C3_generate_gap` evaluated on the
empty list with gap limit 1 and `max_used = -1`. -/
theorem C3_generate_gap_witness :
    generateGap (fun j => ⟨[], j⟩) 1 [] (-1)
      = .ok ([] ++ (List.range (((-1 : Int) + (1 : Nat) + 1 - (0 : Nat)).toNat)).map
          (fun i => (fun j => (⟨[], j⟩ : HDPublicKey)) (0 + i))) :=
  (C3_generate_gap (fun j => ⟨[], j⟩) 1 [] 0 (-1) le_rfl (by decide)
    (fun j => rfl) rfl).1

/-- C4 (counterexample): on an empty list with gap limit `g = 1`,
`generate_gap(-1)` produces the single entry of index 0, so the length
is 1 and not `max_used + g + 2 = 2` as the claim states. -/
theorem C4_length_counterexample :
    generateGap (fun j => ⟨[], j⟩) 1 [] (-1) = .ok [⟨[], 0⟩] ∧
    (([(⟨[], 0⟩ : HDPublicKey)].length : Int) = ((-1) + 1 + 1 : Int)) ∧
    ¬ (([(⟨[], 0⟩ : HDPublicKey)].length : Int) = ((-1) + 1 + 2 : Int)) := by
  refine ⟨?_, by decide, by decide⟩
  rfl

/-- C4 (amended): starting from an empty list with gap limit `g`, a
single `generate_gap(max_used)` with `max_used ≥ -1` yields a list of
length `max_used + g + 1` (indices `0..max_used+g` inclusive). -/
theorem C4_length_amended (child : Nat → HDPublicKey) (g : Nat) (max_used : Int)
    (hg : 1 ≤ g) (hm : -1 ≤ max_used) :
    (generateGap child g [] max_used).map (fun l => (l.length : Int))
      = .ok (max_used + g + 1) := by
  rw [generateGap, if_neg (by omega)]
  simp only [List.getLast?_nil, Except.map, List.nil_append, List.length_map,
    List.length_range]
  congr 1
  omega

/-- C4 witness: `C4_length_amended` evaluated at gap limit 1 and
`max_used = -1`. -/
theorem C4_length_amended_witness :
    (generateGap (fun j => ⟨[], j⟩) 1 [] (-1)).map (fun l => (l.length : Int))
      = .ok ((-1) + (1 : Nat) + 1) :=
  C4_length_amended (fun j => ⟨[], j⟩) 1 (-1) le_rfl (by decide)

/-- C5: `is_beyond_limit` never returns normally -- its `assert`
references the undefined name `BIP32PublicKey`, so every call raises
`NameError` instead of returning the comparison
`entry.index > max_used + g`. -/
theorem C5_is_beyond_limit_raises (g : Nat) (pk : HDPublicKey) (max_used : Int) :
    isBeyondLimit g pk max_used = .error .nameError := rfl

/-- C6: on a freshly constructed `Account`, `set_address_history` does
store the history entry, but then raises `AttributeError` because
`__init__` never creates `gap_check_event`, so the gap-check condition is
never signalled; `sync` (the only other state-touching operation) leaves
the whole state unchanged because it fails on the missing
`rec_addr_list` attribute. -/
theorem C6_set_address_history (rec_keys chg_keys : List HDPublicKey) (a hist : List Nat) :
    (setAddressHistory (mkAccount rec_keys chg_keys) a hist).1.history = [(a, hist)] ∧
    (setAddressHistory (mkAccount rec_keys chg_keys) a hist).2 = .error .attributeError ∧
    (∀ st : Account, (syncAccount st).1 = st ∧ (syncAccount st).2 = .error .attributeError) :=
  ⟨rfl, rfl, fun _ => ⟨rfl, rfl⟩⟩

/-- C2: `BCHAddress.to_string` returns `None` for the legacy and bitpay
formats (the version byte is computed and then the function falls off
the end; the `Base58.encode_check` call is missing), so
`from_string(to_string(a, fmt))` cannot reproduce the address for those
formats. -/
theorem C2_to_string_legacy_none (cenc : AddrKind → List Nat → List Nat)
    (NC : NetworkConsts) (a : Address) :
    toStringBCH cenc NC a FMT_LEGACY = .ok none ∧
    toStringBCH cenc NC a FMT_BITPAY = .ok none :=
  ⟨rfl, rfl⟩

/-! ## Byte-level helper lemmas -/

theorem natToBytes_len_le (e : Nat) (he : e < 2 ^ 256) : (natToBytes e).length ≤ 32 := by
  apply toDigitsF_len_le 256 (by omega) e e 32 le_rfl
  have h : (256 : Nat) ^ 32 = 2 ^ 256 := by norm_num
  omega

theorem exponentToBytes_eq (e : Nat) (he : e < 2 ^ 256) :
    exponentToBytes e = List.replicate (32 - (natToBytes e).length) 0 ++ natToBytes e := by
  have hle := natToBytes_len_le e he
  rw [exponentToBytes]
  simp only [List.length_append, List.length_replicate]
  have hd : 32 + (natToBytes e).length - 32 = (natToBytes e).length := by omega
  rw [hd, List.drop_append_of_le_length (by simpa using hle), List.drop_replicate]

theorem exponentToBytes_length (e : Nat) (he : e < 2 ^ 256) :
    (exponentToBytes e).length = 32 := by
  have hle := natToBytes_len_le e he
  rw [exponentToBytes_eq e he, List.length_append, List.length_replicate]
  omega

theorem exponentToBytes_lt (e : Nat) (he : e < 2 ^ 256) : bytesLt (exponentToBytes e) := by
  rw [exponentToBytes_eq e he]
  intro x hx
  rcases List.mem_append.mp hx with h | h
  · simp [List.eq_of_mem_replicate h]
  · exact toDigitsF_lt 256 (by omega) e e le_rfl x h

theorem bytesToNat_exponentToBytes (e : Nat) (he : e < 2 ^ 256) :
    bytesToNat (exponentToBytes e) = e := by
  rw [exponentToBytes_eq e he, bytesToNat, fromDigits_replicate_zero]
  exact natToBytes_bytesToNat e

theorem nOrder_lt_two_pow : nOrder < 2 ^ 256 := by decide

theorem pSecp_lt_two_pow : pSecp < 2 ^ 256 := by decide

theorem be4_length (n : Nat) : (be4 n).length = 4 := rfl

theorem be4_lt (n : Nat) : bytesLt (be4 n) := by
  intro x hx
  rw [be4] at hx
  simp only [List.mem_cons, List.not_mem_nil, or_false] at hx
  rcases hx with h | h | h | h <;> omega

theorem bytesToNat_be4 (n : Nat) (hn : n < 2 ^ 32) : bytesToNat (be4 n) = n := by
  simp only [bytesToNat, fromDigits, be4, List.foldl_cons, List.foldl_nil]
  omega

/-! ## Constructor characterisations -/

theorem keyBaseChecks_ok_iff (chain : List Nat) (n depth : Nat) (pfp : List Nat) :
    keyBaseChecks chain n depth pfp = .ok () ↔
      chain.length = 32 ∧ n < 2 ^ 32 ∧ depth < 256 ∧ pfp.length = 4 := by
  rw [keyBaseChecks]
  split_ifs <;> simp_all

theorem keyBaseChecks_cases (chain : List Nat) (n depth : Nat) (pfp : List Nat) :
    keyBaseChecks chain n depth pfp = .ok () ∨
      keyBaseChecks chain n depth pfp = .error .valueError := by
  rw [keyBaseChecks]
  split_ifs <;> simp

theorem mkMasterPrivKey_ok (privkey chain : List Nat) (n depth : Nat) (pfp : List Nat)
    (hc : chain.length = 32) (hn : n < 2 ^ 32) (hd : depth < 256) (hp : pfp.length = 4)
    (h32 : privkey.length = 32) (he1 : 1 ≤ bytesToNat privkey)
    (he2 : bytesToNat privkey < nOrder) :
    mkMasterPrivKey privkey chain n depth pfp
      = .ok ⟨bytesToNat privkey, chain, n, depth, pfp⟩ := by
  rw [mkMasterPrivKey]
  rw [show keyBaseChecks chain n depth pfp = .ok () from
    (keyBaseChecks_ok_iff chain n depth pfp).mpr ⟨hc, hn, hd, hp⟩]
  rw [if_neg (fun h => h h32), if_neg (fun h => h ⟨he1, he2⟩)]

theorem mkMasterPrivKey_inv (privkey chain : List Nat) (n depth : Nat) (pfp : List Nat)
    (K : MasterPrivKey) (h : mkMasterPrivKey privkey chain n depth pfp = .ok K) :
    K = ⟨bytesToNat privkey, chain, n, depth, pfp⟩ ∧
    chain.length = 32 ∧ n < 2 ^ 32 ∧ depth < 256 ∧ pfp.length = 4 ∧
    privkey.length = 32 ∧ 1 ≤ bytesToNat privkey ∧ bytesToNat privkey < nOrder := by
  rw [mkMasterPrivKey] at h
  rcases keyBaseChecks_cases chain n depth pfp with hk | hk
  · rw [hk] at h
    by_cases h1 : privkey.length ≠ 32
    · rw [if_pos h1] at h; cases h
    · rw [if_neg h1] at h
      by_cases h2 : ¬ (1 ≤ bytesToNat privkey ∧ bytesToNat privkey < nOrder)
      · rw [if_pos h2] at h; cases h
      · rw [if_neg h2] at h
        push_neg at h1 h2
        obtain ⟨hc, hn, hd, hp⟩ := (keyBaseChecks_ok_iff chain n depth pfp).mp hk
        exact ⟨(Except.ok.inj h).symm, hc, hn, hd, hp, h1, h2.1, h2.2⟩
  · rw [hk] at h
    cases h

theorem mkMasterPrivKey_cases (privkey chain : List Nat) (n depth : Nat) (pfp : List Nat) :
    (∃ K, mkMasterPrivKey privkey chain n depth pfp = .ok K) ∨
      mkMasterPrivKey privkey chain n depth pfp = .error .valueError := by
  rw [mkMasterPrivKey]
  rcases keyBaseChecks_cases chain n depth pfp with hk | hk <;> rw [hk]
  · split_ifs <;> simp
  · simp

theorem mkMasterPubKeyFromPoint_inv (pt : ECPoint) (chain : List Nat) (n depth : Nat)
    (pfp : List Nat) (K : MasterPubKey)
    (h : mkMasterPubKeyFromPoint pt chain n depth pfp = .ok K) :
    K = ⟨pt, chain, n, depth, pfp⟩ ∧
    chain.length = 32 ∧ n < 2 ^ 32 ∧ depth < 256 ∧ pfp.length = 4 := by
  rw [mkMasterPubKeyFromPoint] at h
  rcases keyBaseChecks_cases chain n depth pfp with hk | hk <;> rw [hk] at h
  · obtain ⟨hc, hn, hd, hp⟩ := (keyBaseChecks_ok_iff chain n depth pfp).mp hk
    exact ⟨(Except.ok.inj h).symm, hc, hn, hd, hp⟩
  · cases h

theorem mkMasterPubKeyFromBytes_inv (pubkey chain : List Nat) (n depth : Nat)
    (pfp : List Nat) (K : MasterPubKey)
    (h : mkMasterPubKeyFromBytes pubkey chain n depth pfp = .ok K) :
    chain.length = 32 ∧ n < 2 ^ 32 ∧ depth < 256 ∧ pfp.length = 4 ∧
    K.chain_code = chain ∧ K.n = n ∧ K.depth = depth ∧ K.parent_fingerprint = pfp := by
  rw [mkMasterPubKeyFromBytes] at h
  rcases keyBaseChecks_cases chain n depth pfp with hk | hk <;> rw [hk] at h
  · obtain ⟨hc, hn, hd, hp⟩ := (keyBaseChecks_ok_iff chain n depth pfp).mp hk
    cases hdec : decompressPoint pubkey with
    | error e => rw [hdec] at h; cases h
    | ok pt =>
      rw [hdec] at h
      have := Except.ok.inj h
      subst this
      exact ⟨hc, hn, hd, hp, rfl, rfl, rfl, rfl⟩
  · cases h

/-! ## Concrete inputs used by the witnesses -/

def hashFnsZero : HashFns :=
  ⟨fun _ _ => List.replicate 64 0, fun _ => List.replicate 20 0⟩

def pubKeyG : MasterPubKey :=
  ⟨.point gX gY, List.replicate 32 0, 0, 0, List.replicate 4 0⟩

/-- C8: public child derivation rejects every index `n ≥ 2^31` with
`ValueError` (both `child_verkey_R` and `child`), succeeds only for
`n < 2^31`, and for those indices the only possible failure is
`DerivationError`. -/
theorem C8_public_child_hardened (H : HashFns) (K : MasterPubKey) (n : Nat) :
    (2 ^ 31 ≤ n →
      childVerkeyR H K n = .error .valueError ∧ pubChild H K n = .error .valueError) ∧
    (∀ r, childVerkeyR H K n = .ok r → n < 2 ^ 31) ∧
    (n < 2 ^ 31 →
      (∃ r, childVerkeyR H K n = .ok r) ∨ childVerkeyR H K n = .error .derivationError) := by
  refine ⟨?_, ?_, ?_⟩
  · intro h
    have h1 : childVerkeyR H K n = .error .valueError := by
      simp only [childVerkeyR]
      rw [if_pos (by omega)]
    exact ⟨h1, by rw [pubChild, h1]⟩
  · intro r hr
    by_contra hn
    simp only [childVerkeyR] at hr
    rw [if_pos (by omega)] at hr
    cases hr
  · intro hn
    simp only [childVerkeyR]
    rw [if_neg (by omega)]
    by_cases hL : pubL H K n ≥ nOrder
    · rw [if_pos hL]
      right
      rfl
    · rw [if_neg hL]
      by_cases hpt : ecAdd (ecMulG (pubL H K n)) K.point = ECPoint.infinity
      · rw [if_pos hpt]
        right
        rfl
      · rw [if_neg hpt]
        left
        exact ⟨_, rfl⟩

/-- C8 witness: the hardened boundary index `2^31` itself. -/
theorem C8_public_child_hardened_witness :
    childVerkeyR hashFnsZero pubKeyG (2 ^ 31) = .error .valueError ∧
    pubChild hashFnsZero pubKeyG (2 ^ 31) = .error .valueError :=
  (C8_public_child_hardened hashFnsZero pubKeyG (2 ^ 31)).1 (by decide)

def privKeyOne : MasterPrivKey :=
  ⟨1, List.replicate 32 0, 0, 0, List.replicate 4 0⟩

def privKeyDepth255 : MasterPrivKey :=
  ⟨1, List.replicate 32 0, 0, 255, List.replicate 4 0⟩

def hashFnsFF : HashFns :=
  ⟨fun _ _ => List.replicate 64 255, fun _ => List.replicate 20 0⟩

/-- C7 (counterexample): a parent of depth 255.  With an HMAC whose
first half is zero, `L = 0 < order` and the child scalar is `1 ≠ 0`, so
the claim predicts a returned child key; the code instead raises
`ValueError` from the child constructor's depth check. -/
theorem C7_priv_child_counterexample :
    privChild hashFnsZero privKeyDepth255 (2 ^ 31) = .error .valueError ∧
    privL hashFnsZero privKeyDepth255 (2 ^ 31) = 0 ∧
    (privL hashFnsZero privKeyDepth255 (2 ^ 31)
        + bytesToNat (exponentToBytes privKeyDepth255.secret)) % nOrder = 1 := by
  refine ⟨by decide, by decide, by decide⟩

/-- C7 (amended): for every private extended key of depth below 255 and
every index `n < 2^32`, `child(n)` raises `DerivationError` exactly when
`L ≥ order` or `(L + s) mod order = 0`, and otherwise returns the child
key with scalar `(L + s) mod order`, chain code `R`, index `n`, depth
one greater, and the parent's fingerprint. -/
theorem C7_priv_child_amended (H : HashFns) (K : MasterPrivKey) (n : Nat)
    (hH64 : ∀ key msg, (H.hmacSHA512 key msg).length = 64)
    (hH20 : ∀ bs, (H.hash160 bs).length = 20)
    (hwf : wfPriv K) (hdepth : K.depth < 255) (hn : n < 2 ^ 32) :
    (privChild H K n = .error .derivationError ↔
      nOrder ≤ privL H K n ∨ (privL H K n + K.secret) % nOrder = 0) ∧
    (¬ (nOrder ≤ privL H K n ∨ (privL H K n + K.secret) % nOrder = 0) →
      privChild H K n
        = .ok ⟨(privL H K n + K.secret) % nOrder, privR H K n, n, K.depth + 1,
            privFingerprint H K⟩) := by
  obtain ⟨hc32, hclt, hKn, hKd, hp4, hplt, hs1, hs2⟩ := hwf
  have hsec : bytesToNat (exponentToBytes K.secret) = K.secret :=
    bytesToNat_exponentToBytes _ (lt_trans hs2 nOrder_lt_two_pow)
  have hunfold : privChild H K n
      = if (privL H K n + K.secret) % nOrder = 0 ∨ privL H K n ≥ nOrder then
          .error .derivationError
        else
          mkMasterPrivKey (exponentToBytes ((privL H K n + K.secret) % nOrder))
            (privR H K n) n (K.depth + 1) (privFingerprint H K) := by
    simp only [privChild]
    rw [if_neg (not_not_intro hn), hsec]
  by_cases hcond : (privL H K n + K.secret) % nOrder = 0 ∨ privL H K n ≥ nOrder
  · rw [hunfold, if_pos hcond]
    constructor
    · exact ⟨fun _ => hcond.symm, fun _ => rfl⟩
    · intro hnc
      exact absurd hcond.symm hnc
  · rw [hunfold, if_neg hcond]
    have hexp0 : (privL H K n + K.secret) % nOrder ≠ 0 := fun h => hcond (Or.inl h)
    have hexplt : (privL H K n + K.secret) % nOrder < nOrder :=
      Nat.mod_lt _ (by have := nOrder_lt_two_pow; omega)
    have hok := mkMasterPrivKey_ok (exponentToBytes ((privL H K n + K.secret) % nOrder))
      (privR H K n) n (K.depth + 1) (privFingerprint H K)
      (by rw [privR, List.length_drop, hH64])
      hn (by omega)
      (by rw [privFingerprint, pubFingerprint, List.length_take, hH20]; omega)
      (exponentToBytes_length _ (lt_trans hexplt nOrder_lt_two_pow))
      (by rw [bytesToNat_exponentToBytes _ (lt_trans hexplt nOrder_lt_two_pow)]; omega)
      (by rw [bytesToNat_exponentToBytes _ (lt_trans hexplt nOrder_lt_two_pow)]; exact hexplt)
    rw [hok, bytesToNat_exponentToBytes _ (lt_trans hexplt nOrder_lt_two_pow)]
    constructor
    · constructor
      · intro h
        cases h
      · intro h
        exact absurd h.symm hcond
    · intro _
      rfl

/-- C7 witness: the amended theorem applied to a depth-0 key with secret
1, index `2^31` and the all-zero HMAC. -/
theorem C7_priv_child_witness :
    privChild hashFnsZero privKeyOne (2 ^ 31)
      = .ok ⟨(privL hashFnsZero privKeyOne (2 ^ 31) + privKeyOne.secret) % nOrder,
          privR hashFnsZero privKeyOne (2 ^ 31), 2 ^ 31, privKeyOne.depth + 1,
          privFingerprint hashFnsZero privKeyOne⟩ :=
  (C7_priv_child_amended hashFnsZero privKeyOne (2 ^ 31)
    (fun _ _ => rfl) (fun _ => rfl) (by decide) (by decide) (by decide)).2 (by decide)

/-- C10 (counterexample): at depth 255, when the HMAC yields
`L ≥ curve order` the code raises `DerivationError` (from the derivation
check, which runs before the child constructor), not a validation error
as the claim states for every index. -/
theorem C10_depth_counterexample :
    privChild hashFnsFF privKeyDepth255 (2 ^ 31) = .error .derivationError ∧
    (Except.error PyErr.derivationError : Except PyErr MasterPrivKey)
      ≠ .error .valueError := by
  exact ⟨by decide, by decide⟩

/-- C10 (amended): every successfully constructed key has depth below
256; both child derivations produce depth exactly one greater and below
256; at depth 255 no child is ever produced -- the call errors for every
index, with a validation error whenever the derivation conditions do not
raise `DerivationError` first -- so the depth never wraps modulo 256. -/
theorem C10_depth_invariant :
    (∀ (privkey chain : List Nat) (n depth : Nat) (pfp : List Nat) (K : MasterPrivKey),
      mkMasterPrivKey privkey chain n depth pfp = .ok K → K.depth = depth ∧ K.depth < 256) ∧
    (∀ (pt : ECPoint) (chain : List Nat) (n depth : Nat) (pfp : List Nat) (K : MasterPubKey),
      mkMasterPubKeyFromPoint pt chain n depth pfp = .ok K → K.depth = depth ∧ K.depth < 256) ∧
    (∀ (pubkey chain : List Nat) (n depth : Nat) (pfp : List Nat) (K : MasterPubKey),
      mkMasterPubKeyFromBytes pubkey chain n depth pfp = .ok K → K.depth = depth ∧ K.depth < 256) ∧
    (∀ (H : HashFns) (K : MasterPrivKey) (n : Nat) (C : MasterPrivKey),
      privChild H K n = .ok C → C.depth = K.depth + 1 ∧ C.depth < 256) ∧
    (∀ (H : HashFns) (K : MasterPubKey) (n : Nat) (C : MasterPubKey),
      pubChild H K n = .ok C → C.depth = K.depth + 1 ∧ C.depth < 256) ∧
    (∀ (H : HashFns) (K : MasterPrivKey) (n : Nat) (C : MasterPrivKey),
      K.depth = 255 → privChild H K n ≠ .ok C) ∧
    (∀ (H : HashFns) (K : MasterPubKey) (n : Nat) (C : MasterPubKey),
      K.depth = 255 → pubChild H K n ≠ .ok C) ∧
    (∀ (H : HashFns) (K : MasterPrivKey) (n : Nat),
      K.depth = 255 → n < 2 ^ 32 →
      ¬ ((privL H K n + bytesToNat (exponentToBytes K.secret)) % nOrder = 0 ∨
          privL H K n ≥ nOrder) →
      privChild H K n = .error .valueError) := by
  have hprivchild : ∀ (H : HashFns) (K : MasterPrivKey) (n : Nat) (C : MasterPrivKey),
      privChild H K n = .ok C → C.depth = K.depth + 1 ∧ C.depth < 256 := by
    intro H K n C h
    by_cases hn : n < 2 ^ 32
    · simp only [privChild] at h
      rw [if_neg (not_not_intro hn)] at h
      by_cases hc : (privL H K n + bytesToNat (exponentToBytes K.secret)) % nOrder = 0 ∨
          privL H K n ≥ nOrder
      · rw [if_pos hc] at h; cases h
      · rw [if_neg hc] at h
        obtain ⟨hC, _, _, hd, _⟩ := mkMasterPrivKey_inv _ _ _ _ _ _ h
        subst hC
        exact ⟨rfl, hd⟩
    · simp only [privChild] at h
      rw [if_pos hn] at h
      cases h
  have hpubchild : ∀ (H : HashFns) (K : MasterPubKey) (n : Nat) (C : MasterPubKey),
      pubChild H K n = .ok C → C.depth = K.depth + 1 ∧ C.depth < 256 := by
    intro H K n C h
    rw [pubChild] at h
    cases hcv : childVerkeyR H K n with
    | error e => rw [hcv] at h; cases h
    | ok pr =>
      rw [hcv] at h
      obtain ⟨hC, _, _, hd, _⟩ := mkMasterPubKeyFromPoint_inv _ _ _ _ _ _ h
      subst hC
      exact ⟨rfl, hd⟩
  refine ⟨?_, ?_, ?_, hprivchild, hpubchild, ?_, ?_, ?_⟩
  · intro privkey chain n depth pfp K h
    obtain ⟨hK, _, _, hd, _⟩ := mkMasterPrivKey_inv _ _ _ _ _ _ h
    subst hK
    exact ⟨rfl, hd⟩
  · intro pt chain n depth pfp K h
    obtain ⟨hK, _, _, hd, _⟩ := mkMasterPubKeyFromPoint_inv _ _ _ _ _ _ h
    subst hK
    exact ⟨rfl, hd⟩
  · intro pubkey chain n depth pfp K h
    obtain ⟨_, _, hd, _, _, _, hdep, _⟩ := mkMasterPubKeyFromBytes_inv _ _ _ _ _ _ h
    exact ⟨hdep, by omega⟩
  · intro H K n C h255 h
    obtain ⟨hd, hlt⟩ := hprivchild H K n C h
    omega
  · intro H K n C h255 h
    obtain ⟨hd, hlt⟩ := hpubchild H K n C h
    omega
  · intro H K n h255 hn hnc
    simp only [privChild]
    rw [if_neg (not_not_intro hn), if_neg hnc]
    rcases mkMasterPrivKey_cases (exponentToBytes ((privL H K n
        + bytesToNat (exponentToBytes K.secret)) % nOrder)) (privR H K n) n (K.depth + 1)
        (privFingerprint H K) with ⟨C, hC⟩ | hC
    · obtain ⟨_, _, _, hd, _⟩ := mkMasterPrivKey_inv _ _ _ _ _ _ hC
      omega
    · exact hC

/-- C10 witness: the validation-error branch evaluated at a concrete
depth-255 key with the all-zero HMAC and index `2^31`. -/
theorem C10_depth_invariant_witness :
    privChild hashFnsZero privKeyDepth255 (2 ^ 31) = .error .valueError :=
  C10_depth_invariant.2.2.2.2.2.2.2 hashFnsZero privKeyDepth255 (2 ^ 31)
    (by decide) (by decide) (by decide)

/-! ## List-slicing helpers for the 78-byte layout -/

theorem drop_append_len (l1 l2 : List Nat) (k : Nat) (h : l1.length = k) :
    (l1 ++ l2).drop k = l2 := by
  subst h
  exact List.drop_left l1 l2

theorem take_append_len (l1 l2 : List Nat) (k : Nat) (h : l1.length = k) :
    (l1 ++ l2).take k = l1 := by
  subst h
  exact List.take_left l1 l2

theorem headD_drop (l : List Nat) (k d : Nat) : (l.drop k).headD d = l.getD k d := by
  induction k generalizing l with
  | zero => cases l <;> rfl
  | succ k ih =>
    cases l with
    | nil => rfl
    | cons a t => simp [List.getD_cons_succ, ih t]

/-- Parsing a 4-byte-prefixed extended key only looks at the tail. -/
def fromExtendedKeyTail (rest : List Nat) : Except PyErr (MasterPrivKey ⊕ MasterPubKey) :=
  if rest.length ≠ 74 then .error .valueError
  else
    let depth := rest.getD 0 0
    let pfp := (rest.drop 1).take 4
    let n := bytesToNat ((rest.drop 5).take 4)
    let chain := (rest.drop 9).take 32
    if rest.getD 41 0 ≠ 0 then
      (mkMasterPubKeyFromBytes (rest.drop 41) chain n depth pfp).map Sum.inr
    else
      (mkMasterPrivKey (rest.drop 42) chain n depth pfp).map Sum.inl

theorem fromExtendedKey_eq_tail (v rest : List Nat) (hv : v.length = 4) :
    fromExtendedKey (v ++ rest) = fromExtendedKeyTail rest := by
  have hlen : (v ++ rest).length = 4 + rest.length := by simp [hv]
  have hd4 : (v ++ rest).drop 4 = rest := drop_append_len v rest 4 hv
  have hgd4 : (v ++ rest).getD 4 0 = rest.getD 0 0 := by
    rw [← headD_drop, hd4]
    cases rest <;> rfl
  have hd5 : (v ++ rest).drop 5 = rest.drop 1 := by
    rw [show (5 : Nat) = 4 + 1 from rfl, ← List.drop_drop, hd4]
  have hd9 : (v ++ rest).drop 9 = rest.drop 5 := by
    rw [show (9 : Nat) = 4 + 5 from rfl, ← List.drop_drop, hd4]
  have hd13 : (v ++ rest).drop 13 = rest.drop 9 := by
    rw [show (13 : Nat) = 4 + 9 from rfl, ← List.drop_drop, hd4]
  have hd45 : (v ++ rest).drop 45 = rest.drop 41 := by
    rw [show (45 : Nat) = 4 + 41 from rfl, ← List.drop_drop, hd4]
  have hd46 : (v ++ rest).drop 46 = rest.drop 42 := by
    rw [show (46 : Nat) = 4 + 42 from rfl, ← List.drop_drop, hd4]
  have hgd45 : (v ++ rest).getD 45 0 = rest.getD 41 0 := by
    rw [← headD_drop, hd45, headD_drop]
  rw [fromExtendedKey, fromExtendedKeyTail]
  by_cases hl : rest.length = 74
  · rw [if_neg (show ¬ (v ++ rest).length ≠ 78 by omega)]
    conv_rhs => rw [if_neg (show ¬ rest.length ≠ 74 by omega)]
    rw [hgd4, hgd45, hd5, hd9, hd13, hd45, hd46]
  · rw [if_pos (show (v ++ rest).length ≠ 78 by omega)]
    conv_rhs => rw [if_pos (show rest.length ≠ 74 by omega)]

theorem b58Decode_bytesLt (ds raw : List Nat) (h : b58Decode ds = some raw) :
    bytesLt raw := by
  rw [b58Decode] at h
  by_cases ha : ds.all (fun d => decide (d < 58)) = true
  · rw [if_pos ha] at h
    intro x hx
    rw [← Option.some.inj h] at hx
    rcases List.mem_append.mp hx with h1 | h1
    · simp [List.eq_of_mem_replicate h1]
    · exact toDigitsF_lt 256 (by omega) _ _ le_rfl x h1
  · rw [if_neg ha] at h
    cases h

theorem b58DecodeCheck_bytesLt (chk : List Nat → List Nat) (ds raw : List Nat)
    (h : b58DecodeCheck chk ds = some raw) : bytesLt raw := by
  cases hd : b58Decode ds with
  | none =>
    simp only [b58DecodeCheck, hd] at h
    exact Option.noConfusion h
  | some raw0 =>
    simp only [b58DecodeCheck, hd] at h
    have hlt := b58Decode_bytesLt ds raw0 hd
    by_cases hc : raw0.drop (raw0.length - 4) = (chk (raw0.take (raw0.length - 4))).take 4
    · rw [if_pos hc] at h
      intro x hx
      rw [← Option.some.inj h] at hx
      exact hlt x (List.take_subset _ _ hx)
    · rw [if_neg hc] at h
      cases h

theorem bytesToNat_lt (l : List Nat) (h : bytesLt l) :
    bytesToNat l < 256 ^ l.length := by
  rw [bytesToNat, fromDigits_eq_ofDigits, ← List.length_reverse]
  exact Nat.ofDigits_lt_base_pow_length (by omega)
    (fun x hx => h x (List.mem_reverse.mp hx))

/-- C9: `from_extended_key_string` never validates the four version
bytes -- they are returned verbatim and the parsed key depends only on
the remaining 74 bytes; the private/public dispatch is decided solely by
byte 45, and a nonzero byte 45 other than 2 or 3 is a validation
error. -/
theorem C9_version_bytes (chk : List Nat → List Nat) (s ekey : List Nat)
    (hdec : b58DecodeCheck chk s = some ekey) (hlen : ekey.length = 78) :
    fromExtendedKeyString chk s
      = (fromExtendedKey ekey).map (fun key => (key, ekey.take 4)) ∧
    (∀ v, v.length = 4 → fromExtendedKey (v ++ ekey.drop 4) = fromExtendedKey ekey) ∧
    (ekey.getD 45 0 = 0 →
      fromExtendedKey ekey
        = (mkMasterPrivKey (ekey.drop 46) ((ekey.drop 13).take 32)
            (bytesToNat ((ekey.drop 9).take 4)) (ekey.getD 4 0)
            ((ekey.drop 5).take 4)).map Sum.inl) ∧
    (ekey.getD 45 0 ≠ 0 → ekey.getD 45 0 ≠ 2 → ekey.getD 45 0 ≠ 3 →
      fromExtendedKey ekey = .error .valueError) := by
  refine ⟨?_, ?_, ?_, ?_⟩
  · cases h : fromExtendedKey ekey with
    | error e => simp [fromExtendedKeyString, hdec, h, Except.map]
    | ok key => simp [fromExtendedKeyString, hdec, h, Except.map]
  · intro v hv
    have h2 : fromExtendedKey ekey = fromExtendedKeyTail (ekey.drop 4) := by
      conv_lhs => rw [← List.take_append_drop 4 ekey]
      exact fromExtendedKey_eq_tail _ _ (by rw [List.length_take]; omega)
    rw [fromExtendedKey_eq_tail v _ hv, h2]
  · intro h45
    rw [fromExtendedKey, if_neg (by omega), if_neg (not_not_intro h45)]
  · intro h45a h45b h45c
    rw [fromExtendedKey, if_neg (by omega), if_pos h45a]
    have hhead : (ekey.drop 45).headD 0 = ekey.getD 45 0 := headD_drop ekey 45 0
    rcases keyBaseChecks_cases ((ekey.drop 13).take 32) (bytesToNat ((ekey.drop 9).take 4))
        (ekey.getD 4 0) ((ekey.drop 5).take 4) with hk | hk
    · rw [mkMasterPubKeyFromBytes, hk, decompressPoint,
        if_neg (by rw [List.length_drop, hlen]; omega),
        if_pos (by rw [hhead]; push_neg; exact ⟨h45b, h45c⟩)]
      rfl
    · rw [mkMasterPubKeyFromBytes, hk]
      rfl

def chkZero : List Nat → List Nat := fun _ => [0, 0, 0, 0]

def ekey78 : List Nat := List.replicate 77 0 ++ [1]

def sEkey78 : List Nat := b58EncodeCheck chkZero ekey78

set_option maxRecDepth 8000 in
/-- C9 witness: the first conjunct evaluated on a concrete all-zero
private extended key with scalar 1. -/
theorem C9_version_bytes_witness :
    fromExtendedKeyString chkZero sEkey78
      = (fromExtendedKey ekey78).map (fun key => (key, ekey78.take 4)) :=
  (C9_version_bytes chkZero sEkey78 ekey78 (by decide) (by decide)).1

/-! ## Round-trip of the extended-key serialization (C1) -/

theorem extLayout (verb pfp chain rest e : List Nat) (depth n : Nat)
    (h4 : verb.length = 4) (hp : pfp.length = 4) (hc : chain.length = 32)
    (he : e = verb ++ [depth] ++ pfp ++ be4 n ++ chain ++ rest) :
    e.length = 45 + rest.length ∧ e.take 4 = verb ∧ e.getD 4 0 = depth ∧
    (e.drop 5).take 4 = pfp ∧ (e.drop 9).take 4 = be4 n ∧
    (e.drop 13).take 32 = chain ∧ e.drop 45 = rest := by
  have hassoc : e = verb ++ ([depth] ++ (pfp ++ (be4 n ++ (chain ++ rest)))) := by
    rw [he]
    simp [List.append_assoc]
  have hd4 : e.drop 4 = [depth] ++ (pfp ++ (be4 n ++ (chain ++ rest))) := by
    rw [hassoc]
    exact drop_append_len _ _ 4 h4
  have hd5 : e.drop 5 = pfp ++ (be4 n ++ (chain ++ rest)) := by
    rw [show (5 : Nat) = 4 + 1 from rfl, ← List.drop_drop, hd4]
    rfl
  have hd9 : e.drop 9 = be4 n ++ (chain ++ rest) := by
    rw [show (9 : Nat) = 5 + 4 from rfl, ← List.drop_drop, hd5]
    exact drop_append_len _ _ 4 hp
  have hd13 : e.drop 13 = chain ++ rest := by
    rw [show (13 : Nat) = 9 + 4 from rfl, ← List.drop_drop, hd9]
    exact drop_append_len _ _ 4 (be4_length n)
  have hd45 : e.drop 45 = rest := by
    rw [show (45 : Nat) = 13 + 32 from rfl, ← List.drop_drop, hd13]
    exact drop_append_len _ _ 32 hc
  refine ⟨?_, ?_, ?_, ?_, ?_, ?_, hd45⟩
  · rw [he]
    simp [List.length_append, h4, hp, hc, be4_length]
    omega
  · rw [hassoc]
    exact take_append_len _ _ 4 h4
  · rw [← headD_drop, hd4]
    rfl
  · rw [hd5]
    exact take_append_len _ _ 4 hp
  · rw [hd9]
    exact take_append_len _ _ 4 (be4_length n)
  · rw [hd13]
    exact take_append_len _ _ 32 hc

/-- Decompressing a compressed point recovers the x-coordinate and the
parity of the y-coordinate. -/
theorem decompressPoint_pubkeyBytes (x y : Nat) (hx : x < pSecp) (hok : xDecompressOK x) :
    ∃ y2, decompressPoint ((2 + y % 2) :: exponentToBytes x) = .ok (.point x y2) ∧
      y2 % 2 = y % 2 := by
  have hx256 : x < 2 ^ 256 := lt_trans hx pSecp_lt_two_pow
  have hlen : ((2 + y % 2) :: exponentToBytes x).length = 33 := by
    rw [List.length_cons, exponentToBytes_length x hx256]
  have hhead : ((2 + y % 2) :: exponentToBytes x).headD 0 = 2 + y % 2 := rfl
  have hdrop : ((2 + y % 2) :: exponentToBytes x).drop 1 = exponentToBytes x := rfl
  have hy2 : y % 2 = 0 ∨ y % 2 = 1 := Nat.mod_two_eq_zero_or_one y
  have hmem : 2 + y % 2 = 2 ∨ 2 + y % 2 = 3 := by omega
  rw [decompressPoint, if_neg (by rw [hlen]; omega),
    if_neg (by rw [hhead]; exact not_not_intro hmem)]
  rw [hhead, hdrop, bytesToNat_exponentToBytes x hx256]
  dsimp only
  have hok2 : powMod ((x ^ 3 % pSecp + 7) % pSecp) ((pSecp + 1) / 4) pSecp
      * powMod ((x ^ 3 % pSecp + 7) % pSecp) ((pSecp + 1) / 4) pSecp % pSecp
      = (x ^ 3 % pSecp + 7) % pSecp := hok
  rw [if_neg (not_not_intro hok2)]
  set r := powMod ((x ^ 3 % pSecp + 7) % pSecp) ((pSecp + 1) / 4) pSecp with hr
  have hrlt : r < pSecp := powMod_lt _ _ _ (by decide)
  have hpodd : pSecp % 2 = 1 := by decide
  by_cases hflip : (decide (r % 2 = 1)) ≠ (decide (2 + y % 2 = 3))
  · rw [if_pos hflip]
    refine ⟨pSecp - r, rfl, ?_⟩
    have hb : ¬ (r % 2 = 1 ↔ 2 + y % 2 = 3) := by
      intro hiff
      exact hflip (decide_eq_decide.mpr hiff)
    omega
  · rw [if_neg hflip]
    refine ⟨r, rfl, ?_⟩
    have hb : r % 2 = 1 ↔ 2 + y % 2 = 3 := by
      by_contra hiff
      refine hflip ?_
      simp only [ne_eq, decide_eq_decide]
      tauto
    omega

theorem bytesLt_append {l1 l2 : List Nat} (h1 : bytesLt l1) (h2 : bytesLt l2) :
    bytesLt (l1 ++ l2) := by
  intro x hx
  rcases List.mem_append.mp hx with h | h
  · exact h1 x h
  · exact h2 x h

/-- The extended-key text serialization of either key variant. -/
def extendedKeyStringOf (chk : List Nat → List Nat) (key : MasterPrivKey ⊕ MasterPubKey)
    (ver_bytes : List Nat) : Except PyErr (List Nat) :=
  match key with
  | .inl K => privExtendedKeyString chk K ver_bytes
  | .inr K => pubExtendedKeyString chk K ver_bytes

/-- Encode an extended key to its Base58Check string, then decode the
string back (`from_extended_key_string`). -/
def roundTripEKey (chk : List Nat → List Nat) (key : MasterPrivKey ⊕ MasterPubKey)
    (ver_bytes : List Nat) : Except PyErr ((MasterPrivKey ⊕ MasterPubKey) × List Nat) :=
  match extendedKeyStringOf chk key ver_bytes with
  | .error e => .error e
  | .ok s => fromExtendedKeyString chk s

def wfEKey : MasterPrivKey ⊕ MasterPubKey → Prop
  | .inl K => wfPriv K
  | .inr K => wfPub K

instance (key : MasterPrivKey ⊕ MasterPubKey) : Decidable (wfEKey key) := by
  cases key <;> (unfold wfEKey; infer_instance)

/-- Equality of keys in the sense of claim C1: all serialized fields
agree; for the public variant the key material is compared as the
compressed public point. -/
def ekeyMatchesB : MasterPrivKey ⊕ MasterPubKey → MasterPrivKey ⊕ MasterPubKey → Bool
  | .inl K, .inl C => C == K
  | .inr K, .inr C =>
      (C.chain_code == K.chain_code) && (C.n == K.n) && (C.depth == K.depth) &&
        (C.parent_fingerprint == K.parent_fingerprint) &&
        (pubkeyBytes C == pubkeyBytes K)
  | _, _ => false

/-- C1: encoding a well-formed extended key (either variant, any depth)
with any 4-byte version prefix and Base58Check-decoding the result
reconstructs an equal key -- same chain code, child index, depth, parent
fingerprint and key material -- and returns the version bytes
alongside. -/
theorem C1_extended_key_roundtrip (chk : List Nat → List Nat)
    (key : MasterPrivKey ⊕ MasterPubKey) (verb : List Nat)
    (hchk : ∀ bs, (chk bs).length = 4 ∧ ∀ x ∈ chk bs, x < 256)
    (hv4 : verb.length = 4) (hvlt : bytesLt verb) (hwf : wfEKey key) :
    (roundTripEKey chk key verb).map Prod.snd = .ok verb ∧
    (roundTripEKey chk key verb).map (fun q => ekeyMatchesB key q.1) = .ok true := by
  cases key with
  | inl K =>
    obtain ⟨hc32, hclt, hKn, hKd, hp4, hplt, hs1, hs2⟩ := hwf
    have hsec256 : K.secret < 2 ^ 256 := lt_trans hs2 nOrder_lt_two_pow
    have hser_len : (0 :: exponentToBytes K.secret).length = 33 := by
      rw [List.length_cons, exponentToBytes_length _ hsec256]
    set e := verb ++ [K.depth] ++ K.parent_fingerprint ++ be4 K.n ++ K.chain_code
      ++ (0 :: exponentToBytes K.secret) with hedef
    have henc : privExtendedKey K verb = .ok e := by
      rw [privExtendedKey, extendedKeyBytes, if_neg (fun h => h hv4),
        if_neg (fun h => h hser_len), hedef]
    obtain ⟨hLlen, hLtake, hLgd4, hLd5, hLd9, hLd13, hLd45⟩ :=
      extLayout verb K.parent_fingerprint K.chain_code (0 :: exponentToBytes K.secret)
        e K.depth K.n hv4 hp4 hc32 hedef
    have helt : bytesLt e := by
      rw [hedef]
      refine bytesLt_append (bytesLt_append (bytesLt_append (bytesLt_append
        (bytesLt_append hvlt ?_) hplt) (be4_lt K.n)) hclt) ?_
      · intro w hw
        simp only [List.mem_singleton] at hw
        omega
      · intro w hw
        rcases List.mem_cons.mp hw with hw | hw
        · omega
        · exact exponentToBytes_lt _ hsec256 w hw
    have hlen78 : e.length = 78 := by rw [hLlen, hser_len]
    have hdec : b58DecodeCheck chk (b58EncodeCheck chk e) = some e :=
      b58DecodeCheck_b58EncodeCheck chk e helt hchk
    have hgd45 : e.getD 45 0 = 0 := by rw [← headD_drop, hLd45]; rfl
    have hd46 : e.drop 46 = exponentToBytes K.secret := by
      rw [show (46 : Nat) = 45 + 1 from rfl, ← List.drop_drop, hLd45]
      rfl
    have hparse : fromExtendedKey e = .ok (Sum.inl K) := by
      rw [fromExtendedKey, if_neg (not_not_intro hlen78),
        if_neg (not_not_intro hgd45), hLgd4, hLd5, hLd9, hLd13, hd46,
        bytesToNat_be4 K.n hKn,
        mkMasterPrivKey_ok (exponentToBytes K.secret) K.chain_code K.n K.depth
          K.parent_fingerprint hc32 hKn hKd hp4 (exponentToBytes_length _ hsec256)
          (by rw [bytesToNat_exponentToBytes _ hsec256]; exact hs1)
          (by rw [bytesToNat_exponentToBytes _ hsec256]; exact hs2),
        bytesToNat_exponentToBytes _ hsec256]
      rfl
    have hrt : roundTripEKey chk (Sum.inl K) verb = .ok (Sum.inl K, verb) := by
      simp only [roundTripEKey, extendedKeyStringOf, privExtendedKeyString, henc,
        Except.map, fromExtendedKeyString, hdec, hparse, hLtake]
    refine ⟨by rw [hrt]; rfl, by rw [hrt]; simp [Except.map, ekeyMatchesB]⟩
  | inr K =>
    obtain ⟨hc32, hclt, hKn, hKd, hp4, hplt, hpt⟩ := hwf
    cases hKpt : K.point with
    | infinity =>
      rw [hKpt] at hpt
      simp [pointOK] at hpt
    | point x y =>
      rw [hKpt] at hpt
      obtain ⟨hxlt, hylt, hcurve, hxok⟩ := hpt
      have hx256 : x < 2 ^ 256 := lt_trans hxlt pSecp_lt_two_pow
      have hpb : pubkeyBytes K = (2 + y % 2) :: exponentToBytes x := by
        simp only [pubkeyBytes, hKpt]
      have hser_len : (pubkeyBytes K).length = 33 := by
        rw [hpb, List.length_cons, exponentToBytes_length _ hx256]
      set e := verb ++ [K.depth] ++ K.parent_fingerprint ++ be4 K.n ++ K.chain_code
        ++ pubkeyBytes K with hedef
      have henc : pubExtendedKey K verb = .ok e := by
        rw [pubExtendedKey, extendedKeyBytes, if_neg (fun h => h hv4),
          if_neg (fun h => h hser_len), hedef]
      obtain ⟨hLlen, hLtake, hLgd4, hLd5, hLd9, hLd13, hLd45⟩ :=
        extLayout verb K.parent_fingerprint K.chain_code (pubkeyBytes K)
          e K.depth K.n hv4 hp4 hc32 hedef
      have helt : bytesLt e := by
        rw [hedef, hpb]
        refine bytesLt_append (bytesLt_append (bytesLt_append (bytesLt_append
          (bytesLt_append hvlt ?_) hplt) (be4_lt K.n)) hclt) ?_
        · intro w hw
          simp only [List.mem_singleton] at hw
          omega
        · intro w hw
          rcases List.mem_cons.mp hw with hw | hw
          · omega
          · exact exponentToBytes_lt _ hx256 w hw
      have hlen78 : e.length = 78 := by rw [hLlen, hser_len]
      have hdec : b58DecodeCheck chk (b58EncodeCheck chk e) = some e :=
        b58DecodeCheck_b58EncodeCheck chk e helt hchk
      have hgd45 : e.getD 45 0 = 2 + y % 2 := by
        rw [← headD_drop, hLd45, hpb]
        rfl
      obtain ⟨y2, hdp, hy2⟩ := decompressPoint_pubkeyBytes x y hxlt hxok
      have hparse : fromExtendedKey e
          = .ok (Sum.inr ⟨.point x y2, K.chain_code, K.n, K.depth,
              K.parent_fingerprint⟩) := by
        rw [fromExtendedKey, if_neg (not_not_intro hlen78),
          if_pos (by rw [hgd45]; omega), hLgd4, hLd5, hLd9, hLd13, hLd45,
          bytesToNat_be4 K.n hKn, mkMasterPubKeyFromBytes,
          (keyBaseChecks_ok_iff K.chain_code K.n K.depth K.parent_fingerprint).mpr
            ⟨hc32, hKn, hKd, hp4⟩,
          hpb, hdp]
        rfl
      have hrt : roundTripEKey chk (Sum.inr K) verb
          = .ok (Sum.inr ⟨.point x y2, K.chain_code, K.n, K.depth,
              K.parent_fingerprint⟩, verb) := by
        simp only [roundTripEKey, extendedKeyStringOf, pubExtendedKeyString, henc,
          Except.map, fromExtendedKeyString, hdec, hparse, hLtake]
      have hpb2 : pubkeyBytes (⟨.point x y2, K.chain_code, K.n, K.depth,
          K.parent_fingerprint⟩ : MasterPubKey) = pubkeyBytes K := by
        rw [hpb]
        simp only [pubkeyBytes]
        rw [hy2]
      refine ⟨by rw [hrt]; rfl, by rw [hrt]; simp [Except.map, ekeyMatchesB, hpb2]⟩

def verbXprv : List Nat := [4, 136, 173, 228]

/-- C1 witness: the round trip evaluated on a concrete private key of
depth 0 with secret 1 and the standard `xprv` version bytes. -/
theorem C1_extended_key_roundtrip_witness :
    (roundTripEKey chkZero (Sum.inl privKeyOne) verbXprv).map Prod.snd = .ok verbXprv ∧
    (roundTripEKey chkZero (Sum.inl privKeyOne) verbXprv).map
        (fun q => ekeyMatchesB (Sum.inl privKeyOne) q.1) = .ok true :=
  C1_extended_key_roundtrip chkZero (Sum.inl privKeyOne) verbXprv
    (fun bs => ⟨rfl, fun x hx => by
      simp [chkZero] at hx
      omega⟩)
    rfl (by decide) (by decide)
